import Mathlib

/-!
Verification of the Somunicate dimension-based audio search engine.

The Python source (SomunicateDBASv10.0.py, with earlier variants v2.0-v9.0 and
eucdisMax.py) is embedded shallowly:

* A numeric cell of a pandas data frame is `Val := Option ℚ`; `none` models NaN
  (produced by `pd.to_numeric(..., errors='coerce')` or missing CSV cells).
  Arithmetic on `Val` propagates `none` exactly as IEEE arithmetic propagates
  NaN, and `none ≥ t` is `false`, as every NaN comparison is.
* A catalog row (`final_combined_data` row) is an association list from column
  name to cell value; column selection `row[col]` is `colVal`.
* `np.linalg.norm(x - t)` and `np.sqrt(dᵀ M d)` apply a square root before the
  values are sorted.  The square root is irrational in general, so the
  embedding keeps the *radicand* as the sort key, wrapped by `sqrtKey`, which
  maps a negative radicand to `none` (``np.sqrt`` of a negative argument is
  NaN) and keeps a non-negative radicand unchanged.  Since `Real.sqrt` is
  strictly monotone on non-negatives, sorting by the radicand sorts exactly as
  sorting by the distance; theorems about the distance value itself state it
  through `Real.sqrt` of the key.
* `np.argsort` is modelled as a deterministic sort of the index list by key,
  with NaN keys ordered last, as numpy places them.
* `np.linalg.inv` raising `LinAlgError("Singular matrix")` is modelled by
  `Except`: `load_and_prepare_data` returns `.error "Singular matrix"` exactly
  when the covariance matrix has determinant zero.
-/

/-- A pandas cell: `none` is NaN / missing, `some q` a numeric value. -/
abbrev Val := Option ℚ

/-- A catalog row: association list from column name to cell value. -/
abbrev Row := List (String × Val)

/-- Column access `row[col]` (a column absent from the row reads as NaN). -/
def colVal (row : Row) (c : String) : Val := (row.lookup c).getD none

/-- NaN-propagating addition. -/
def addVal : Val → Val → Val
  | some a, some b => some (a + b)
  | _, _ => none

/-- NaN-propagating multiplication. -/
def mulVal : Val → Val → Val
  | some a, some b => some (a * b)
  | _, _ => none

/-- NaN-propagating sum of a list of cells. -/
def sumVal (l : List Val) : Val := l.foldr addVal (some 0)

/-- `np.mean` of a list of cells: NaN when the list is empty (0/0) and when
any entry is NaN. -/
def npMean (l : List Val) : Val :=
  if l.length = 0 then none else (sumVal l).map fun s => s / (l.length : ℚ)

/-- `v >= t` on cells: every comparison with NaN is `False`. -/
def valGe : Val → ℚ → Bool
  | some a, t => decide (t ≤ a)
  | none, _ => false

/-- Key order used by the ranking: numeric keys by `≤`, NaN keys last,
matching how `np.argsort` places NaN. -/
def valLe : Val → Val → Bool
  | some a, some b => decide (a ≤ b)
  | some _, none => true
  | none, some _ => false
  | none, none => true

/-- The sort relation on indices induced by a key list. -/
abbrev argRel (keys : List Val) (i j : ℕ) : Prop :=
  valLe (keys.getD i none) (keys.getD j none) = true

/-- `np.argsort keys`: the index list `[0, …, n-1]` sorted by key. -/
def argsortVal (keys : List Val) : List ℕ :=
  List.insertionSort (argRel keys) (List.range keys.length)

/-- Squared difference `(x - t)²` of a cell and a target rating. -/
def sqDiff (v : Val) (t : ℚ) : Val := v.map fun x => (x - t) ^ 2

/-- Radicand of `np.linalg.norm(row[dims] - user_ratings)`:
the sum over the selected dimensions of the squared differences. -/
def eucSq (row : Row) (dimensions : List String) (user_ratings : List ℚ) : Val :=
  sumVal (List.zipWith (fun d t => sqDiff (colVal row d) t) dimensions user_ratings)

/-- `np.sqrt` acting on a sort key: negative radicand becomes NaN; a
non-negative radicand is kept (sorting by it equals sorting by its root). -/
def sqrtKey : Val → Val
  | none => none
  | some s => if s < 0 then none else some s

/-- The per-row Euclidean sort keys of `find_closest_sounds_euclidean`. -/
def eucDistances (user_ratings : List ℚ) (dimensions : List String)
    (final_combined_data : List Row) : List Val :=
  final_combined_data.map fun row => sqrtKey (eucSq row dimensions user_ratings)

/-- The demographic condition of the filtering loop in
`find_closest_sounds_euclidean` / `_mahalanobis` (v10.0): mean liking over the
selected groups (columns `str(gid)`) at least `MIN_LIKING`, and mean
familiarity (columns `str(gid + 12)`) at least `MIN_FAMILIARITY`. -/
def keepRow (data : List Row) (user_group_ids : List ℕ)
    (MIN_LIKING MIN_FAMILIARITY : ℚ) (index : ℕ) : Bool :=
  let row := data.getD index []
  valGe (npMean (user_group_ids.map fun g => colVal row (toString g))) MIN_LIKING &&
  valGe (npMean (user_group_ids.map fun g => colVal row (toString (g + 12)))) MIN_FAMILIARITY

/-- The v10.0 filtering loop: walk the distance-ordered indices, append those
passing the demographic conditions, and break as soon as `top_n` were
collected (the loop's `index == ''` disjunct is always false and is omitted). -/
def filterLoop (keep : ℕ → Bool) (top_n : ℕ) : List ℕ → List ℕ → List ℕ
  | [], acc => acc
  | index :: rest, acc =>
    let acc2 := if keep index then acc ++ [index] else acc
    if top_n ≤ acc2.length then acc2 else filterLoop keep top_n rest acc2

/-- `find_closest_sounds_euclidean` (v10.0), returning the positional indices
of the rows the function returns (`final_combined_data.iloc[top_indices]`). -/
def find_closest_sounds_euclidean (user_ratings : List ℚ) (dimensions : List String)
    (final_combined_data : List Row) (user_group_ids : List ℕ) (top_n : ℕ)
    (MIN_LIKING MIN_FAMILIARITY : ℚ) : List ℕ :=
  filterLoop (keepRow final_combined_data user_group_ids MIN_LIKING MIN_FAMILIARITY)
    top_n (argsortVal (eucDistances user_ratings dimensions final_combined_data)) []

/-- `inv_cov_matrix[np.ix_(rows, cols)]`: sub-matrix extraction by row and
column index lists. -/
def np_ix (M : List (List ℚ)) (rows cols : List ℕ) : List (List ℚ) :=
  rows.map fun r => cols.map fun c => (M.getD r []).getD c 0

/-- The sub-matrix step of `find_closest_sounds_mahalanobis` in v5.0/v9.0/v10.0:
`inv_cov_matrix[np.ix_([dimensions.index(dim) for dim in dimensions], …)]`.
`dimensions.index(dim)` looks `dim` up in the *selected* list itself. -/
def selected_inv_cov_matrix (inv_cov_matrix : List (List ℚ))
    (dimensions : List String) : List (List ℚ) :=
  np_ix inv_cov_matrix
    (dimensions.map fun dim => List.indexOf dim dimensions)
    (dimensions.map fun dim => List.indexOf dim dimensions)

/-- The sub-matrix step of `find_closest_sound_mahalanobis` in v2.0/v3.0:
`inv_cov_matrix[np.ix_([rating_columns.get_loc(dim) for dim in dimensions], …)]`,
which looks each selected dimension up in the full 19-column ordering. -/
def selected_inv_cov_matrix_getloc (inv_cov_matrix : List (List ℚ))
    (rating_columns dimensions : List String) : List (List ℚ) :=
  np_ix inv_cov_matrix
    (dimensions.map fun dim => List.indexOf dim rating_columns)
    (dimensions.map fun dim => List.indexOf dim rating_columns)

/-- The difference vector `row[dims] - user_ratings` of the manual
Mahalanobis distance computation. -/
def diffList (row : Row) (dimensions : List String) (user_ratings : List ℚ) : List Val :=
  List.zipWith (fun d t => (colVal row d).map fun x => x - t) dimensions user_ratings

/-- Radicand of the manual Mahalanobis distance: `diff.T @ M @ diff` with
`diff = row[dims] - user_ratings`, NaN-propagating. -/
def mahSq (M : List (List ℚ)) (row : Row) (dimensions : List String)
    (user_ratings : List ℚ) : Val :=
  let diff := diffList row dimensions user_ratings
  sumVal ((List.range diff.length).map fun i =>
    sumVal ((List.range diff.length).map fun j =>
      mulVal (mulVal (diff.getD i none) (some ((M.getD i []).getD j 0)))
        (diff.getD j none)))

/-- The per-row Mahalanobis sort keys of `find_closest_sounds_mahalanobis`. -/
def mahDistances (user_ratings : List ℚ) (dimensions : List String)
    (final_combined_data : List Row) (inv_cov_matrix : List (List ℚ)) : List Val :=
  let sel := selected_inv_cov_matrix inv_cov_matrix dimensions
  final_combined_data.map fun row => sqrtKey (mahSq sel row dimensions user_ratings)

/-- `find_closest_sounds_mahalanobis` (v10.0), returning row indices. -/
def find_closest_sounds_mahalanobis (user_ratings : List ℚ) (dimensions : List String)
    (final_combined_data : List Row) (inv_cov_matrix : List (List ℚ))
    (user_group_ids : List ℕ) (top_n : ℕ)
    (MIN_LIKING MIN_FAMILIARITY : ℚ) : List ℕ :=
  filterLoop (keepRow final_combined_data user_group_ids MIN_LIKING MIN_FAMILIARITY)
    top_n (argsortVal (mahDistances user_ratings dimensions final_combined_data inv_cov_matrix)) []

/-- Minimum of a key list under `valLe` (helper for `npArgmin`). -/
def valMinFold (l : List Val) : Val :=
  match l with
  | [] => none
  | a :: rest => rest.foldl (fun m b => if valLe m b then m else b) a

/-- `np.argmin keys`: index of the first minimum; with a NaN present numpy
returns the index of the first NaN. -/
def npArgmin (keys : List Val) : ℕ :=
  if none ∈ keys then List.indexOf none keys else List.indexOf (valMinFold keys) keys

/-- `find_closest_sound` of eucdisMax.py: single closest row by Euclidean
distance via `np.argmin`. -/
def find_closest_sound (user_ratings : List ℚ) (dimensions : List String)
    (data : List Row) : ℕ :=
  npArgmin (eucDistances user_ratings dimensions data)

/-- `corr_matrix_setup` (v10.0): drop the first (label) column
(`iloc[:, 1:]`) and rescale each coefficient by `(corr_matrix * 2) - 1`. -/
def corr_matrix_setup (raw : List (List Val)) : List (List Val) :=
  (raw.map fun r => r.drop 1).map fun r => r.map fun v => v.map fun c => c * 2 - 1

/-- `row.get(key, 0)`: column access with default 0 for a missing column
(`AudioScoreCalculator.calculate_scores`). -/
def pyRowGet (row : Row) (key : String) : Val := (row.lookup key).getD (some 0)

/-- `0 if pd.isna(v) else int(v)`: NaN becomes 0, a numeric value is truncated
toward zero as Python's `int()` does. -/
def toIntPy : Val → ℤ
  | none => 0
  | some q => Int.tdiv q.num (q.den : ℤ)

/-- `AudioScoreCalculator.calculate_scores` (v10.0): per row, sum the
truncated liking scores of columns `str(id)` and familiarity scores of
columns `str(id + 12)` over the user's group ids, count every id, and return
the floor-divided (`//`) averages. -/
def calculate_scores (user_group_ids : List ℕ) (row : Row) : ℤ × ℤ :=
  let total_liking := (user_group_ids.map fun id => toIntPy (pyRowGet row (toString id))).sum
  let total_familiarity :=
    (user_group_ids.map fun id => toIntPy (pyRowGet row (toString (id + 12)))).sum
  let count_liking := user_group_ids.length
  let count_familiarity := user_group_ids.length
  (if 0 < count_liking then Int.fdiv total_liking (count_liking : ℤ) else 0,
   if 0 < count_familiarity then Int.fdiv total_familiarity (count_familiarity : ℤ) else 0)

/-- The covariance matrix `std_diag_matrix @ corr_matrix @ std_diag_matrix`
of `load_and_prepare_data`, with `corr_matrix` rescaled by `(· * 2) - 1`
(`corr_matrix_setup`).  The per-dimension standard deviations are taken as
rational inputs (pandas computes them as floating square roots, which have no
exact rational embedding; only the diagonal values matter here). -/
def cov_matrix {n : ℕ} (stds : Fin n → ℚ) (corrRaw : Matrix (Fin n) (Fin n) ℚ) :
    Matrix (Fin n) (Fin n) ℚ :=
  Matrix.diagonal stds * (Matrix.of fun i j => corrRaw i j * 2 - 1) * Matrix.diagonal stds

/-- `load_and_prepare_data` (v10.0): builds the covariance matrix and inverts
it eagerly with `np.linalg.inv`, which raises `LinAlgError("Singular matrix")`
when the determinant is zero — modelled as `Except`.  On success the cached
inverse is `det⁻¹ • adjugate`. -/
def load_and_prepare_data {n : ℕ} (stds : Fin n → ℚ)
    (corrRaw : Matrix (Fin n) (Fin n) ℚ) :
    Except String (Matrix (Fin n) (Fin n) ℚ) :=
  if (cov_matrix stds corrRaw).det = 0 then
    Except.error "Singular matrix"
  else
    Except.ok (((cov_matrix stds corrRaw).det)⁻¹ • (cov_matrix stds corrRaw).adjugate)

/-! ### Basic facts about NaN-propagating arithmetic -/

theorem addVal_none_left (v : Val) : addVal none v = none := rfl

theorem addVal_none_right (v : Val) : addVal v none = none := by
  cases v <;> rfl

theorem sumVal_eq_none_of_mem {l : List Val} (h : none ∈ l) : sumVal l = none := by
  induction l with
  | nil => cases h
  | cons a rest ih =>
    rcases List.mem_cons.mp h with ha | hrest
    · subst ha
      rfl
    · show addVal a (sumVal rest) = none
      rw [ih hrest, addVal_none_right]

theorem mulVal_none_left (v : Val) : mulVal none v = none := rfl

theorem sumVal_cons (v : Val) (l : List Val) : sumVal (v :: l) = addVal v (sumVal l) := rfl

/-! ### The argsort model: permutation, sortedness and NaN placement -/

theorem valLe_total (u v : Val) : valLe u v = true ∨ valLe v u = true := by
  cases u <;> cases v
  · simp [valLe]
  · simp [valLe]
  · simp [valLe]
  · simpa [valLe] using le_total _ _

theorem valLe_trans {u v w : Val} (h1 : valLe u v = true) (h2 : valLe v w = true) :
    valLe u w = true := by
  cases u <;> cases v <;> cases w <;> simp_all [valLe]
  exact le_trans h1 h2

instance argRel_total (keys : List Val) : IsTotal ℕ (argRel keys) :=
  ⟨fun _ _ => valLe_total _ _⟩

instance argRel_trans (keys : List Val) : IsTrans ℕ (argRel keys) :=
  ⟨fun _ _ _ => valLe_trans⟩

theorem argsortVal_perm (keys : List Val) :
    (argsortVal keys).Perm (List.range keys.length) :=
  List.perm_insertionSort _ _

theorem mem_argsortVal {keys : List Val} {i : ℕ} :
    i ∈ argsortVal keys ↔ i < keys.length := by
  rw [(argsortVal_perm keys).mem_iff, List.mem_range]

theorem argsortVal_pairwise (keys : List Val) :
    List.Pairwise (argRel keys) (argsortVal keys) :=
  List.sorted_insertionSort _ _

/-- In the output of `argsortVal`, every index with a numeric key occupies an
earlier position than every index with a NaN key: the defined distances are
ranked first, NaN distances last. -/
theorem argsort_none_after_some {keys : List Val} {i j : ℕ}
    (hi : i < keys.length) (hj : j < keys.length)
    (hki : keys.getD i none = none) (hkj : keys.getD j none ≠ none) :
    ∃ p q : Fin (argsortVal keys).length,
      (argsortVal keys).get p = i ∧ (argsortVal keys).get q = j ∧ q < p := by
  obtain ⟨p, hp⟩ := List.mem_iff_get.mp (mem_argsortVal.mpr hi)
  obtain ⟨q, hq⟩ := List.mem_iff_get.mp (mem_argsortVal.mpr hj)
  refine ⟨p, q, hp, hq, ?_⟩
  rcases lt_trichotomy q p with h | h | h
  · exact h
  · exfalso
    apply hkj
    rw [← hq, h, hp]
    exact hki
  · exfalso
    have hrel := (List.pairwise_iff_get.mp (argsortVal_pairwise keys)) p q h
    rw [hp, hq] at hrel
    obtain ⟨b, hb⟩ := Option.ne_none_iff_exists'.mp hkj
    rw [argRel, hki, hb] at hrel
    simp [valLe] at hrel

/-! ### The filtering loop -/

theorem filterLoop_nil (keep : ℕ → Bool) (top_n : ℕ) (acc : List ℕ) :
    filterLoop keep top_n [] acc = acc := rfl

theorem filterLoop_cons (keep : ℕ → Bool) (top_n index : ℕ) (rest acc : List ℕ) :
    filterLoop keep top_n (index :: rest) acc =
      if top_n ≤ (if keep index then acc ++ [index] else acc).length
      then (if keep index then acc ++ [index] else acc)
      else filterLoop keep top_n rest (if keep index then acc ++ [index] else acc) := rfl

/-- The filtering loop appends a sublist of the candidate indices to its
accumulator, and never grows the result past `top_n` once started below it. -/
theorem filterLoop_spec (keep : ℕ → Bool) (top_n : ℕ) :
    ∀ (idxs acc : List ℕ),
      ∃ s : List ℕ, filterLoop keep top_n idxs acc = acc ++ s ∧
        s.Sublist idxs ∧ (acc.length < top_n → (acc ++ s).length ≤ top_n) := by
  intro idxs
  induction idxs with
  | nil =>
    intro acc
    refine ⟨[], by simp [filterLoop_nil], List.nil_sublist _, fun h => ?_⟩
    simpa using le_of_lt h
  | cons index rest ih =>
    intro acc
    rw [filterLoop_cons]
    by_cases hk : keep index = true
    · simp only [if_pos hk]
      by_cases hb : top_n ≤ (acc ++ [index]).length
      · rw [if_pos hb]
        refine ⟨[index], rfl, (List.nil_sublist rest).cons₂ index, fun h => ?_⟩
        simp only [List.length_append, List.length_singleton] at hb ⊢
        omega
      · rw [if_neg hb]
        obtain ⟨s, hs1, hs2, hs3⟩ := ih (acc ++ [index])
        refine ⟨index :: s, ?_, hs2.cons₂ index, fun h => ?_⟩
        · rw [hs1, List.append_assoc]
          rfl
        · have hlt : (acc ++ [index]).length < top_n := lt_of_not_le hb
          have := hs3 hlt
          simp only [List.length_append, List.length_singleton, List.length_cons] at this ⊢
          omega
    · simp only [if_neg hk]
      by_cases hb : top_n ≤ acc.length
      · rw [if_pos hb]
        exact ⟨[], by simp, List.nil_sublist _, fun h => absurd hb (not_le_of_lt h)⟩
      · rw [if_neg hb]
        obtain ⟨s, hs1, hs2, hs3⟩ := ih acc
        exact ⟨s, hs1, hs2.cons index, hs3⟩

/-- The filtering loop only looks at the keep-predicate pointwise. -/
theorem filterLoop_congr {keep keep2 : ℕ → Bool} (h : ∀ i, keep i = keep2 i)
    (top_n : ℕ) : ∀ (idxs acc : List ℕ),
    filterLoop keep top_n idxs acc = filterLoop keep2 top_n idxs acc := by
  intro idxs
  induction idxs with
  | nil => intro acc; rfl
  | cons index rest ih =>
    intro acc
    rw [filterLoop_cons, filterLoop_cons, h index]
    by_cases hb : top_n ≤ (if keep2 index then acc ++ [index] else acc).length
    · rw [if_pos hb, if_pos hb]
    · rw [if_neg hb, if_neg hb, ih]

/-- With a never-true keep-predicate the filtering loop returns its
accumulator unchanged. -/
theorem filterLoop_keep_false {keep : ℕ → Bool} (h : ∀ i, keep i = false)
    (top_n : ℕ) : ∀ (idxs acc : List ℕ), filterLoop keep top_n idxs acc = acc := by
  intro idxs
  induction idxs with
  | nil => intro acc; rfl
  | cons index rest ih =>
    intro acc
    rw [filterLoop_cons]
    simp only [h index, Bool.false_eq_true, if_false]
    by_cases hb : top_n ≤ acc.length
    · rw [if_pos hb]
    · rw [if_neg hb, ih]

/-! ### Generic list access helpers -/

/-- `getD` commutes with `map` when the function fixes the default. -/
theorem getD_map_eq {α β : Type} (f : α → β) (l : List α) (i : ℕ) (dA : α)
    (dB : β) (hd : f dA = dB) : (l.map f).getD i dB = f (l.getD i dA) := by
  induction l generalizing i with
  | nil => simpa [List.getD] using hd.symm
  | cons a rest ih =>
    cases i with
    | zero => simp [List.getD_cons_zero]
    | succ k => simpa [List.getD_cons_succ] using ih k

/-- `zipWith` only applies its function to elements of the left list. -/
theorem zipWith_congr_left {α β γ : Type} {f g : α → β → γ} {la : List α}
    (h : ∀ a ∈ la, ∀ b, f a b = g a b) :
    ∀ lb : List β, List.zipWith f la lb = List.zipWith g la lb := by
  induction la with
  | nil => intro lb; simp
  | cons a rest ih =>
    intro lb
    cases lb with
    | nil => simp
    | cons b bs =>
      rw [List.zipWith_cons_cons, List.zipWith_cons_cons,
        h a (List.mem_cons_self a rest) b,
        ih (fun x hx => h x (List.mem_cons_of_mem a hx)) bs]

/-! ### Distances on rows with an undefined selected rating -/

/-- A row undefined on a selected dimension has NaN Euclidean radicand. -/
theorem eucSq_eq_none {row : Row} {dims : List String} {target : List ℚ}
    (hlen : dims.length = target.length)
    (h : ∃ d ∈ dims, colVal row d = none) :
    eucSq row dims target = none := by
  obtain ⟨d, hd, hnone⟩ := h
  obtain ⟨k, hk, hget⟩ := List.mem_iff_getElem.mp hd
  apply sumVal_eq_none_of_mem
  have hk2 : k < (List.zipWith (fun d t => sqDiff (colVal row d) t) dims target).length := by
    rw [List.length_zipWith]
    omega
  have hz : (List.zipWith (fun d t => sqDiff (colVal row d) t) dims target)[k] = none := by
    rw [List.getElem_zipWith, hget, hnone]
    rfl
  rw [← hz]
  exact List.getElem_mem hk2

/-- `getD` on a `zipWith` list at an in-range position. -/
theorem getD_zipWith_of_lt {α β γ : Type} {f : α → β → γ} {l1 : List α}
    {l2 : List β} {k : ℕ} (h1 : k < l1.length) (h2 : k < l2.length)
    (d : γ) (d1 : α) (d2 : β) :
    (List.zipWith f l1 l2).getD k d = f (l1.getD k d1) (l2.getD k d2) := by
  have hk : k < (List.zipWith f l1 l2).length := by
    rw [List.length_zipWith]
    omega
  rw [List.getD_eq_getElem?_getD, List.getElem?_eq_getElem hk, Option.getD_some,
    List.getElem_zipWith, List.getD_eq_getElem?_getD, List.getElem?_eq_getElem h1,
    List.getD_eq_getElem?_getD, List.getElem?_eq_getElem h2, Option.getD_some,
    Option.getD_some]

/-- A row undefined on a selected dimension has NaN Mahalanobis radicand,
whatever the sub-matrix is. -/
theorem mahSq_eq_none {M : List (List ℚ)} {row : Row} {dims : List String}
    {target : List ℚ} (hlen : dims.length = target.length)
    (h : ∃ d ∈ dims, colVal row d = none) :
    mahSq M row dims target = none := by
  obtain ⟨d, hd, hnone⟩ := h
  obtain ⟨k, hk, hget⟩ := List.mem_iff_getElem.mp hd
  have hk2 : k < (diffList row dims target).length := by
    rw [diffList, List.length_zipWith]
    omega
  have hdk : (diffList row dims target).getD k none = none := by
    rw [diffList, getD_zipWith_of_lt hk (by omega) none d 0]
    have : dims.getD k d = d := by
      rw [List.getD_eq_getElem?_getD, List.getElem?_eq_getElem hk, Option.getD_some, hget]
    rw [this, hnone]
    rfl
  show sumVal ((List.range (diffList row dims target).length).map fun i =>
    sumVal ((List.range (diffList row dims target).length).map fun j =>
      mulVal (mulVal ((diffList row dims target).getD i none)
        (some ((M.getD i []).getD j 0)))
        ((diffList row dims target).getD j none))) = none
  apply sumVal_eq_none_of_mem
  refine List.mem_map.mpr ⟨k, List.mem_range.mpr hk2, ?_⟩
  show sumVal ((List.range (diffList row dims target).length).map fun j =>
      mulVal (mulVal ((diffList row dims target).getD k none)
        (some ((M.getD k []).getD j 0)))
        ((diffList row dims target).getD j none)) = none
  apply sumVal_eq_none_of_mem
  refine List.mem_map.mpr ⟨0, List.mem_range.mpr (by omega), ?_⟩
  show mulVal (mulVal ((diffList row dims target).getD k none)
      (some ((M.getD k []).getD 0 0)))
      ((diffList row dims target).getD 0 none) = none
  rw [hdk, mulVal_none_left, mulVal_none_left]

/-- A row defined on every selected dimension has the exact sum of squared
differences over the selected dimensions as Euclidean radicand. -/
theorem eucSq_defined {row : Row} {dims : List String} (target : List ℚ)
    (h : ∀ d ∈ dims, colVal row d ≠ none) :
    eucSq row dims target =
      some ((List.zipWith (fun d t => ((colVal row d).getD 0 - t) ^ 2) dims target).sum) := by
  unfold eucSq
  induction dims generalizing target with
  | nil => cases target <;> rfl
  | cons d ds ih =>
    cases target with
    | nil => rfl
    | cons t ts =>
      obtain ⟨a, ha⟩ := Option.ne_none_iff_exists'.mp (h d (List.mem_cons_self d ds))
      rw [List.zipWith_cons_cons, List.zipWith_cons_cons, sumVal_cons,
        ih ts (fun x hx => h x (List.mem_cons_of_mem d hx)), ha, List.sum_cons]
      rfl

/-! ### Congruence: rankings only read the selected and group columns -/

/-- Two rows agree on everything a query reads: the selected dimension
columns and the liking/familiarity columns of the selected groups. -/
abbrev AgreeOn (dims : List String) (gids : List ℕ) (r r2 : Row) : Prop :=
  (∀ d ∈ dims, colVal r d = colVal r2 d) ∧
  ∀ g ∈ gids, colVal r (toString g) = colVal r2 (toString g) ∧
    colVal r (toString (g + 12)) = colVal r2 (toString (g + 12))

theorem eucSq_congr {r r2 : Row} {dims : List String} (target : List ℚ)
    (h : ∀ d ∈ dims, colVal r d = colVal r2 d) :
    eucSq r dims target = eucSq r2 dims target := by
  unfold eucSq
  rw [zipWith_congr_left (fun a ha b => by rw [h a ha]) target]

theorem diffList_congr {r r2 : Row} {dims : List String} (target : List ℚ)
    (h : ∀ d ∈ dims, colVal r d = colVal r2 d) :
    diffList r dims target = diffList r2 dims target := by
  unfold diffList
  rw [zipWith_congr_left (fun a ha b => by rw [h a ha]) target]

theorem mahSq_congr {M : List (List ℚ)} {r r2 : Row} {dims : List String}
    (target : List ℚ) (h : ∀ d ∈ dims, colVal r d = colVal r2 d) :
    mahSq M r dims target = mahSq M r2 dims target := by
  unfold mahSq
  rw [diffList_congr target h]

theorem forall₂_getD {α β : Type} {R : α → β → Prop} {l1 : List α} {l2 : List β}
    (h : List.Forall₂ R l1 l2) {i : ℕ} (hi : i < l1.length) (d1 : α) (d2 : β) :
    R (l1.getD i d1) (l2.getD i d2) := by
  obtain ⟨hlen, hget⟩ := List.forall₂_iff_get.mp h
  have hi2 : i < l2.length := hlen ▸ hi
  rw [List.getD_eq_getElem?_getD, List.getElem?_eq_getElem hi, Option.getD_some,
    List.getD_eq_getElem?_getD, List.getElem?_eq_getElem hi2, Option.getD_some]
  exact hget i hi hi2

theorem keepRow_congr {dims : List String} {gids : List ℕ} {data data2 : List Row}
    (hrel : List.Forall₂ (AgreeOn dims gids) data data2) (minL minF : ℚ) :
    ∀ i, keepRow data gids minL minF i = keepRow data2 gids minL minF i := by
  intro i
  by_cases hi : i < data.length
  · have hrow := forall₂_getD hrel hi ([] : Row) ([] : Row)
    simp only [keepRow]
    rw [List.map_congr_left fun g hg => (hrow.2 g hg).1,
      List.map_congr_left fun g hg => (hrow.2 g hg).2]
  · have h1 : data.getD i [] = [] := List.getD_eq_default _ _ (le_of_not_lt hi)
    have h2 : data2.getD i [] = [] := by
      refine List.getD_eq_default _ _ ?_
      rw [← hrel.length_eq]
      exact le_of_not_lt hi
    simp only [keepRow]
    rw [h1, h2]

theorem eucDistances_congr {dims : List String} {gids : List ℕ}
    {data data2 : List Row} (target : List ℚ)
    (hrel : List.Forall₂ (AgreeOn dims gids) data data2) :
    eucDistances target dims data = eucDistances target dims data2 := by
  induction hrel with
  | nil => rfl
  | cons hrow hrest ih =>
    unfold eucDistances at ih ⊢
    rw [List.map_cons, List.map_cons, ih, eucSq_congr target hrow.1]

theorem mahDistances_congr {dims : List String} {gids : List ℕ}
    {data data2 : List Row} (target : List ℚ) (inv_cov : List (List ℚ))
    (hrel : List.Forall₂ (AgreeOn dims gids) data data2) :
    mahDistances target dims data inv_cov = mahDistances target dims data2 inv_cov := by
  induction hrel with
  | nil => rfl
  | cons hrow hrest ih =>
    unfold mahDistances at ih ⊢
    rw [List.map_cons, List.map_cons, ih, mahSq_congr target hrow.1]

/-! ### Helpers for the score aggregation -/

theorem toIntPy_cast {v : Val} (h : (v.getD 0).den = 1) :
    ((toIntPy v : ℤ) : ℚ) = v.getD 0 := by
  cases v with
  | none => simp [toIntPy]
  | some q =>
    have h1 : q.den = 1 := by simpa using h
    show ((Int.tdiv q.num (q.den : ℤ) : ℤ) : ℚ) = q
    rw [h1]
    simpa [Int.tdiv_one] using (Rat.den_eq_one_iff q).mp h1

theorem sum_toIntPy_cast (l : List Val) (h : ∀ v ∈ l, (v.getD 0).den = 1) :
    (((l.map toIntPy).sum : ℤ) : ℚ) = (l.map fun v => v.getD 0).sum := by
  induction l with
  | nil => simp
  | cons a rest ih =>
    simp only [List.map_cons, List.sum_cons, Int.cast_add]
    rw [ih fun v hv => h v (List.mem_cons_of_mem a hv),
      toIntPy_cast (h a (List.mem_cons_self a rest))]

theorem fdiv_eq_floor_div (a : ℤ) (n : ℕ) :
    Int.fdiv a (n : ℤ) = ⌊(a : ℚ) / (n : ℚ)⌋ := by
  rw [Rat.floor_intCast_div_natCast]
  exact Int.fdiv_eq_ediv a (Int.natCast_nonneg n)

/-! ### Concrete data used by scenario theorems -/

/-- The 19 dimension keys in full catalog ordering, abstractly `d0 … d18`. -/
def dims19 : List String := (List.range 19).map fun i => "d" ++ toString i

/-- A concrete cached 19×19 inverse-covariance matrix with pairwise distinct
entries: `M19[i][j] = 19 i + j`. -/
def M19 : List (List ℚ) :=
  (List.range 19).map fun i => (List.range 19).map fun j => (19 * i + j : ℚ)

/-- C4 scenario catalog: three sounds rated 0.5, −0.2, 0.9 on `urgency`,
all passing the demographic filter. -/
def catScenario : List Row :=
  [[("urgency", some (1/2)), ("1", some 100), ("13", some 100)],
   [("urgency", some (-1/5)), ("1", some 100), ("13", some 100)],
   [("urgency", some (9/10)), ("1", some 100), ("13", some 100)]]

/-- C3 catalog: the second entry has an undefined rating on the selected
dimension `d`; both entries pass the demographic filter. -/
def catUndef : List Row :=
  [[("d", some 0), ("1", some 100), ("13", some 100)],
   [("d", none), ("1", some 100), ("13", some 100)]]

/-- C2 catalog: one sound, rated on `d`. -/
def catOne : List Row := [[("d", some 0), ("1", some 100), ("13", some 100)]]

/-- C7 witness catalog and its variant: they differ only in the value of the
unselected dimension column `b` of the single entry. -/
def catBase : List Row :=
  [[("a", some 1), ("b", some 5), ("1", some 100), ("13", some 100)]]

def catVariant : List Row :=
  [[("a", some 1), ("b", some (-3)), ("1", some 100), ("13", some 100)]]

/-- C6 concrete per-dimension standard deviations (both 1). -/
def stds2 : Fin 2 → ℚ := ![1, 1]

/-- C6 concrete correlation table on the raw [0,1] scale whose two rows are
identical (two perfectly collinear dimensions): after rescaling, `R = 𝟙𝟙ᵀ`
and `Σ = D·R·D` is singular. -/
def corr2 : Matrix (Fin 2) (Fin 2) ℚ := !![1, 1; 1, 1]

theorem cov2_eq : cov_matrix stds2 corr2 = !![1, 1; 1, 1] := by
  ext i j
  fin_cases i <;> fin_cases j <;>
    simp [cov_matrix, stds2, corr2, Matrix.mul_apply, Fin.sum_univ_two,
      Matrix.diagonal] <;> norm_num

theorem cov2_det : (cov_matrix stds2 corr2).det = 0 := by
  rw [cov2_eq, Matrix.det_fin_two]
  norm_num

/-! ### Claim theorems -/

/-- C1: at the concrete cached 19×19 inverse matrix `M19`, the shipped
sub-matrix extraction (v5.0/v9.0/v10.0, `dimensions.index(dim)` over the
selected list itself) selects rows/columns [0,1] for the selected dimensions
`[d2, d0]` — the top-left block, identical for either selection order —
whereas the full-ordering extraction of v2.0/v3.0
(`rating_columns.get_loc(dim)`), which is what the claim describes, selects
rows/columns [2,0], is order-sensitive (transposed-consistent), and differs
from what the shipped code computes. -/
theorem mahalanobis_submatrix_ignores_full_ordering :
    selected_inv_cov_matrix M19 ["d2", "d0"] = [[0, 1], [19, 20]] ∧
    selected_inv_cov_matrix M19 ["d0", "d2"] = selected_inv_cov_matrix M19 ["d2", "d0"] ∧
    selected_inv_cov_matrix_getloc M19 dims19 ["d2", "d0"] = [[40, 38], [2, 0]] ∧
    selected_inv_cov_matrix_getloc M19 dims19 ["d0", "d2"] = [[0, 2], [38, 40]] ∧
    selected_inv_cov_matrix M19 ["d2", "d0"] ≠
      selected_inv_cov_matrix_getloc M19 dims19 ["d2", "d0"] := by
  with_unfolding_all decide

/-- C2 counterexample: with `selectedGroups = ∅` the ranked candidate list of
the one-entry catalog is `[0]`, but the filtering stage returns `[]` — the
demographic filter is not the identity on its input (`np.mean([])` is NaN and
NaN fails both threshold comparisons). -/
theorem demographic_filter_empty_groups_not_identity :
    argsortVal (eucDistances [0] ["d"] catOne) = [0] ∧
    find_closest_sounds_euclidean [0] ["d"] catOne [] 1 0 0 = [] ∧
    find_closest_sounds_mahalanobis [0] ["d"] catOne [[1]] [] 1 0 0 = [] ∧
    ([] : List ℕ) ≠ [0] := by
  with_unfolding_all decide

/-- C2 amended: when the set of selected demographic groups is empty, the
demographic filter rejects every candidate — both rankings return the empty
list for any catalog, any thresholds and any `top_n`, because the mean over
zero groups is NaN and NaN fails both `≥` threshold checks. -/
theorem demographic_filter_empty_groups_rejects_all
    (user_ratings : List ℚ) (dimensions : List String) (data : List Row)
    (inv_cov : List (List ℚ)) (top_n : ℕ) (minL minF : ℚ) :
    find_closest_sounds_euclidean user_ratings dimensions data [] top_n minL minF = [] ∧
    find_closest_sounds_mahalanobis user_ratings dimensions data inv_cov [] top_n minL minF
      = [] := by
  have hfalse : ∀ i, keepRow data [] minL minF i = false := fun i => rfl
  exact ⟨filterLoop_keep_false hfalse _ _ _, filterLoop_keep_false hfalse _ _ _⟩

/-- C5 (amended to `1 ≤ n`): the top-N selection stage returns a sublist of
its already-ordered input — same relative order, no reordering — of length at
most `n`. -/
theorem selectTopN_sublist_and_bound (keep : ℕ → Bool) (idxs : List ℕ)
    (n : ℕ) (hn : 1 ≤ n) :
    (filterLoop keep n idxs []).Sublist idxs ∧
    (filterLoop keep n idxs []).length ≤ n := by
  obtain ⟨s, h1, h2, h3⟩ := filterLoop_spec keep n idxs []
  rw [h1, List.nil_append]
  have hlen := h3 (by simpa using hn)
  rw [List.nil_append] at hlen
  exact ⟨h2, hlen⟩

/-- C5 witness: the theorem applied at a concrete keep-predicate, candidate
list and `n = 2`. -/
theorem selectTopN_sublist_and_bound_witness :
    (filterLoop (fun i => decide (i % 2 = 0)) 2 [1, 2, 3, 4, 5] []).Sublist
      [1, 2, 3, 4, 5] ∧
    (filterLoop (fun i => decide (i % 2 = 0)) 2 [1, 2, 3, 4, 5] []).length ≤ 2 :=
  selectTopN_sublist_and_bound _ _ _ (by decide)

/-- C5 counterexample at `n = 0`: the loop appends before it tests the break
condition, so with `top_n = 0` and a passing candidate it still returns one
element, violating "length at most n" for `n = 0`. -/
theorem selectTopN_zero_counterexample :
    filterLoop (fun _ => true) 0 [7] [] = [7] ∧
    ¬ (filterLoop (fun _ => true) 0 [7] []).length ≤ 0 := by
  decide

/-- C6 amended: `load_and_prepare_data` inverts `Σ = D·R·D` eagerly at load
time; when `Σ` is singular the *load itself* fails with the singular-matrix
error (`np.linalg.inv` raises `LinAlgError`) before any query of either
metric can run, and when `Σ` is invertible the load succeeds and caches the
inverse.  There is no per-metric surfacing and no fallback. -/
theorem singular_covariance_load_fails {n : ℕ} (stds : Fin n → ℚ)
    (corrRaw : Matrix (Fin n) (Fin n) ℚ) :
    ((cov_matrix stds corrRaw).det = 0 →
      load_and_prepare_data stds corrRaw = Except.error "Singular matrix") ∧
    ((cov_matrix stds corrRaw).det ≠ 0 →
      load_and_prepare_data stds corrRaw =
        Except.ok (((cov_matrix stds corrRaw).det)⁻¹ •
          (cov_matrix stds corrRaw).adjugate)) := by
  constructor
  · intro h
    simp [load_and_prepare_data, h]
  · intro h
    simp [load_and_prepare_data, h]

/-- C6 witness: the theorem applied to the concrete singular reference data
`stds2` / `corr2`. -/
theorem singular_covariance_load_fails_witness :
    load_and_prepare_data stds2 corr2 = Except.error "Singular matrix" :=
  (singular_covariance_load_fails stds2 corr2).1 cov2_det

/-- C6 counterexample: for the concrete reference data with two identical
correlation rows the derived covariance is singular and the catalog load does
not succeed — it returns the singular-matrix error, so no subsequent query
(Mahalanobis or Euclidean) is reachable from this load. -/
theorem singular_covariance_load_error_concrete :
    (cov_matrix stds2 corr2).det = 0 ∧
    load_and_prepare_data stds2 corr2 = Except.error "Singular matrix" :=
  ⟨cov2_det, by simp [load_and_prepare_data, cov2_det]⟩

/-- In-range `getD` commutes with `map` regardless of defaults. -/
theorem getD_map_of_lt {α β : Type} (f : α → β) {l : List α} {i : ℕ}
    (hi : i < l.length) (dA : α) (dB : β) :
    (l.map f).getD i dB = f (l.getD i dA) := by
  have hi2 : i < (l.map f).length := by simpa using hi
  rw [List.getD_eq_getElem?_getD, List.getElem?_eq_getElem hi2, Option.getD_some,
    List.getElem_map, List.getD_eq_getElem?_getD, List.getElem?_eq_getElem hi,
    Option.getD_some]

/-- C3 amended: an entry with an undefined rating on a selected dimension has
an *undefined* distance under both metrics — its NaN never contributes as a
zero — and in both argsort rankings it is placed after every entry whose
distance is defined.  (It is excluded from the output only while enough
defined-distance entries fill `top_n`; see the counterexample for the case
where it does appear.) -/
theorem undefined_rating_never_zero_and_ranked_last
    (user_ratings : List ℚ) (dims : List String) (data : List Row)
    (inv_cov : List (List ℚ)) (i j : ℕ)
    (hlen : dims.length = user_ratings.length)
    (hi : i < data.length) (hj : j < data.length)
    (hundef : ∃ d ∈ dims, colVal (data.getD i []) d = none)
    (hjE : (eucDistances user_ratings dims data).getD j none ≠ none)
    (hjM : (mahDistances user_ratings dims data inv_cov).getD j none ≠ none) :
    (eucDistances user_ratings dims data).getD i none = none ∧
    (mahDistances user_ratings dims data inv_cov).getD i none = none ∧
    (∃ p q : Fin (argsortVal (eucDistances user_ratings dims data)).length,
      (argsortVal (eucDistances user_ratings dims data)).get p = i ∧
      (argsortVal (eucDistances user_ratings dims data)).get q = j ∧ q < p) ∧
    (∃ p q : Fin (argsortVal (mahDistances user_ratings dims data inv_cov)).length,
      (argsortVal (mahDistances user_ratings dims data inv_cov)).get p = i ∧
      (argsortVal (mahDistances user_ratings dims data inv_cov)).get q = j ∧ q < p) := by
  have hE : (eucDistances user_ratings dims data).getD i none = none := by
    rw [eucDistances, getD_map_of_lt _ hi [] none, eucSq_eq_none hlen hundef]
    rfl
  have hM : (mahDistances user_ratings dims data inv_cov).getD i none = none := by
    simp only [mahDistances]
    rw [getD_map_of_lt _ hi [] none, mahSq_eq_none hlen hundef]
    rfl
  have hlE : i < (eucDistances user_ratings dims data).length := by
    simpa [eucDistances] using hi
  have hlE2 : j < (eucDistances user_ratings dims data).length := by
    simpa [eucDistances] using hj
  have hlM : i < (mahDistances user_ratings dims data inv_cov).length := by
    simpa [mahDistances] using hi
  have hlM2 : j < (mahDistances user_ratings dims data inv_cov).length := by
    simpa [mahDistances] using hj
  exact ⟨hE, hM, argsort_none_after_some hlE hlE2 hE hjE,
    argsort_none_after_some hlM hlM2 hM hjM⟩

/-- C3 witness: the theorem applied to the concrete two-entry catalog whose
second entry is undefined on the selected dimension. -/
theorem undefined_rating_never_zero_and_ranked_last_witness :
    (eucDistances [0] ["d"] catUndef).getD 1 none = none ∧
    (mahDistances [0] ["d"] catUndef [[1]]).getD 1 none = none ∧
    (∃ p q : Fin (argsortVal (eucDistances [0] ["d"] catUndef)).length,
      (argsortVal (eucDistances [0] ["d"] catUndef)).get p = 1 ∧
      (argsortVal (eucDistances [0] ["d"] catUndef)).get q = 0 ∧ q < p) ∧
    (∃ p q : Fin (argsortVal (mahDistances [0] ["d"] catUndef [[1]])).length,
      (argsortVal (mahDistances [0] ["d"] catUndef [[1]])).get p = 1 ∧
      (argsortVal (mahDistances [0] ["d"] catUndef [[1]])).get q = 0 ∧ q < p) :=
  undefined_rating_never_zero_and_ranked_last [0] ["d"] catUndef [[1]] 1 0
    (by with_unfolding_all decide) (by with_unfolding_all decide)
    (by with_unfolding_all decide) (by with_unfolding_all decide)
    (by with_unfolding_all decide) (by with_unfolding_all decide)

/-- C3 counterexample: with `top_n = 2` exceeding the single defined entry,
the entry whose rating on the selected dimension is undefined *does* appear
in the output of both rankings (in last place), refuting "appears in the
output of neither ranking". -/
theorem undefined_rating_entry_appears_in_output :
    colVal (catUndef.getD 1 []) "d" = none ∧
    1 ∈ find_closest_sounds_euclidean [0] ["d"] catUndef [1] 2 0 0 ∧
    1 ∈ find_closest_sounds_mahalanobis [0] ["d"] catUndef [[1]] [1] 2 0 0 := by
  with_unfolding_all decide

/-- C4: the Euclidean radicand of a fully-defined entry is exactly the sum
over the selected dimensions of squared differences (the distance is its
square root), and in the spec's concrete scenario — three sounds rated 0.5,
−0.2, 0.9 on `urgency`, target 0, `top_n = 2` — the result is the sound
rated −0.2 (distance √(1/25) = 0.2) followed by the sound rated 0.5
(distance √(1/4) = 0.5). -/
theorem euclidean_distance_formula_and_scenario :
    (∀ (dims : List String) (target : List ℚ) (row : Row),
      (∀ d ∈ dims, colVal row d ≠ none) →
      eucSq row dims target =
        some ((List.zipWith (fun d t => ((colVal row d).getD 0 - t) ^ 2) dims target).sum)) ∧
    eucDistances [0] ["urgency"] catScenario =
      [some (1/4), some (1/25), some (81/100)] ∧
    find_closest_sounds_euclidean [0] ["urgency"] catScenario [1] 2 0 0 = [1, 0] ∧
    find_closest_sound [0] ["urgency"] catScenario = 1 ∧
    Real.sqrt (1/25) = 1/5 ∧ Real.sqrt (1/4) = 1/2 := by
  refine ⟨fun dims target row h => eucSq_defined target h, ?_, ?_, ?_, ?_, ?_⟩
  · with_unfolding_all decide
  · with_unfolding_all decide
  · with_unfolding_all decide
  · rw [show (1 : ℝ)/25 = (1/5) ^ 2 by norm_num, Real.sqrt_sq (by norm_num)]
  · rw [show (1 : ℝ)/4 = (1/2) ^ 2 by norm_num, Real.sqrt_sq (by norm_num)]

/-- C4 witness: the distance-formula part applied to the scenario's first
row. -/
theorem euclidean_distance_formula_and_scenario_witness :
    eucSq [("urgency", some (1/2)), ("1", some 100), ("13", some 100)]
        ["urgency"] [0] =
      some ((List.zipWith
        (fun d t =>
          ((colVal [("urgency", some (1/2)), ("1", some 100), ("13", some 100)] d).getD 0
            - t) ^ 2)
        ["urgency"] [0]).sum) :=
  euclidean_distance_formula_and_scenario.1 ["urgency"] [0] _
    (by with_unfolding_all decide)

/-- C7: distances and output ranks read only the selected dimension columns
and the selected groups' liking/familiarity columns: two catalogs that agree
row-by-row on those columns (and may differ arbitrarily elsewhere, e.g. in an
unselected dimension of an entry) produce identical distance lists and
identical outputs under both metrics. -/
theorem unselected_dimension_never_changes_rank
    (user_ratings : List ℚ) (dims : List String) (data data2 : List Row)
    (inv_cov : List (List ℚ)) (gids : List ℕ) (top_n : ℕ) (minL minF : ℚ)
    (hrel : List.Forall₂ (AgreeOn dims gids) data data2) :
    eucDistances user_ratings dims data = eucDistances user_ratings dims data2 ∧
    mahDistances user_ratings dims data inv_cov =
      mahDistances user_ratings dims data2 inv_cov ∧
    find_closest_sounds_euclidean user_ratings dims data gids top_n minL minF =
      find_closest_sounds_euclidean user_ratings dims data2 gids top_n minL minF ∧
    find_closest_sounds_mahalanobis user_ratings dims data inv_cov gids top_n minL minF =
      find_closest_sounds_mahalanobis user_ratings dims data2 inv_cov gids top_n minL minF := by
  have he := eucDistances_congr user_ratings hrel
  have hm := mahDistances_congr user_ratings inv_cov hrel
  have hk := keepRow_congr hrel minL minF
  refine ⟨he, hm, ?_, ?_⟩
  · unfold find_closest_sounds_euclidean
    rw [he, filterLoop_congr hk]
  · unfold find_closest_sounds_mahalanobis
    rw [hm, filterLoop_congr hk]

/-- C7 witness: the theorem applied to two concrete one-entry catalogs that
differ only in the unselected dimension column `b`. -/
theorem unselected_dimension_never_changes_rank_witness :
    eucDistances [0] ["a"] catBase = eucDistances [0] ["a"] catVariant ∧
    mahDistances [0] ["a"] catBase [[1]] = mahDistances [0] ["a"] catVariant [[1]] ∧
    find_closest_sounds_euclidean [0] ["a"] catBase [1] 1 0 0 =
      find_closest_sounds_euclidean [0] ["a"] catVariant [1] 1 0 0 ∧
    find_closest_sounds_mahalanobis [0] ["a"] catBase [[1]] [1] 1 0 0 =
      find_closest_sounds_mahalanobis [0] ["a"] catVariant [[1]] [1] 1 0 0 :=
  unselected_dimension_never_changes_rank [0] ["a"] catBase catVariant [[1]] [1] 1 0 0
    (List.Forall₂.cons (by with_unfolding_all decide) List.Forall₂.nil)

/-- C8: `corr_matrix_setup` rescales every retained source coefficient `c`
(the label column is dropped first) to exactly `c·2 − 1` before the
covariance matrix is built; in particular `c = 0.75` becomes exactly `0.5`,
within the 1e-9 tolerance. -/
theorem correlation_rescaling :
    (∀ (raw : List (List Val)) (i j : ℕ) (c : ℚ),
      ((raw.getD i []).drop 1).getD j none = some c →
      ((corr_matrix_setup raw).getD i []).getD j none = some (c * 2 - 1)) ∧
    corr_matrix_setup [[none, some (3/4)]] = [[some (1/2)]] ∧
    |(3/4 : ℚ) * 2 - 1 - 1/2| ≤ 1 / 1000000000 := by
  refine ⟨?_, by with_unfolding_all decide, by norm_num⟩
  intro raw i j c hc
  have e1 : (corr_matrix_setup raw).getD i [] =
      ((raw.map fun r : List Val => r.drop 1).getD i []).map fun v : Val =>
        v.map fun c : ℚ => c * 2 - 1 :=
    getD_map_eq _ _ i [] [] rfl
  have e2 : (raw.map fun r : List Val => r.drop 1).getD i [] = (raw.getD i []).drop 1 :=
    getD_map_eq _ _ i [] [] rfl
  have e3 : (((raw.getD i []).drop 1).map fun v : Val =>
        v.map fun c : ℚ => c * 2 - 1).getD j none =
      Option.map (fun c : ℚ => c * 2 - 1) (((raw.getD i []).drop 1).getD j none) :=
    getD_map_eq _ _ j none none rfl
  rw [e1, e2, e3, hc]
  rfl

/-- C8 witness: the rescaling equation applied at the concrete one-cell
correlation table holding `c = 0.75`. -/
theorem correlation_rescaling_witness :
    ((corr_matrix_setup [[none, some (3/4)]]).getD 0 []).getD 0 none =
      some ((3/4 : ℚ) * 2 - 1) :=
  correlation_rescaling.1 [[none, some (3/4)]] 0 0 (3/4)
    (by with_unfolding_all decide)

/-- C10: for a non-empty selected group set and integer-valued (or
missing/NaN) per-group scores, `calculate_scores` returns exactly the floor
of the mean over *all* selected groups, with a missing or NaN group score
entering the sum as 0 and the divisor always the full group count — an
undefined score drags the aggregate down as if it were 0, instead of being
excluded. -/
theorem calculate_scores_floor_mean (user_group_ids : List ℕ) (row : Row)
    (hne : user_group_ids ≠ [])
    (hden : ∀ g ∈ user_group_ids, ((pyRowGet row (toString g)).getD 0).den = 1 ∧
      ((pyRowGet row (toString (g + 12))).getD 0).den = 1) :
    calculate_scores user_group_ids row =
      (⌊((user_group_ids.map fun g => (pyRowGet row (toString g)).getD 0).sum) /
          (user_group_ids.length : ℚ)⌋,
       ⌊((user_group_ids.map fun g => (pyRowGet row (toString (g + 12))).getD 0).sum) /
          (user_group_ids.length : ℚ)⌋) := by
  have hlen : 0 < user_group_ids.length := List.length_pos.mpr hne
  have h1 : (((user_group_ids.map fun g => toIntPy (pyRowGet row (toString g))).sum : ℤ) : ℚ)
      = (user_group_ids.map fun g => (pyRowGet row (toString g)).getD 0).sum := by
    have := sum_toIntPy_cast (user_group_ids.map fun g => pyRowGet row (toString g))
      (fun v hv => by
        obtain ⟨g, hg, rfl⟩ := List.mem_map.mp hv
        exact (hden g hg).1)
    simpa [List.map_map, Function.comp] using this
  have h2 : (((user_group_ids.map fun g =>
        toIntPy (pyRowGet row (toString (g + 12)))).sum : ℤ) : ℚ)
      = (user_group_ids.map fun g => (pyRowGet row (toString (g + 12))).getD 0).sum := by
    have := sum_toIntPy_cast (user_group_ids.map fun g => pyRowGet row (toString (g + 12)))
      (fun v hv => by
        obtain ⟨g, hg, rfl⟩ := List.mem_map.mp hv
        exact (hden g hg).2)
    simpa [List.map_map, Function.comp] using this
  simp only [calculate_scores, if_pos hlen]
  rw [fdiv_eq_floor_div, fdiv_eq_floor_div, h1, h2]

/-- C10 witness: the theorem applied to groups `[1, 2]` and a row whose
group-2 liking is NaN and whose group-2 familiarity column is missing:
liking = ⌊(7 + 0)/2⌋ = 3 and familiarity = ⌊(3 + 0)/2⌋ = 1. -/
theorem calculate_scores_floor_mean_witness :
    calculate_scores [1, 2] [("1", some 7), ("2", none), ("13", some 3)] =
      (⌊(([1, 2].map fun g =>
          (pyRowGet [("1", some 7), ("2", none), ("13", some 3)] (toString g)).getD 0).sum) /
          (([1, 2] : List ℕ).length : ℚ)⌋,
       ⌊(([1, 2].map fun g =>
          (pyRowGet [("1", some 7), ("2", none), ("13", some 3)]
            (toString (g + 12))).getD 0).sum) /
          (([1, 2] : List ℕ).length : ℚ)⌋) :=
  calculate_scores_floor_mean [1, 2] [("1", some 7), ("2", none), ("13", some 3)]
    (by decide) (by with_unfolding_all decide)
